import Mathlib

/-! Verification of the demographic aggregation and contact-matrix
construction core of `synthpops/base.py`.

Embedding conventions:
* Python numeric values (ints and floats produced by the arithmetic in
  `base.py`) are modelled as rationals `ℚ`, so that the algebraic identities
  are exact.
* A Python `dict` whose iteration order or key list matters is modelled as an
  association list `List (K × V)` (Python dicts preserve insertion order and
  have no duplicate keys; theorems add a `Nodup` hypothesis on the key list
  where the proof needs it).
* A Python `dict` used only through lookups of keys that are known to be
  present is modelled as a total function; hypotheses of the theorems restrict
  attention to the in-domain part, matching the non-raising executions of the
  Python code.
* A numpy 2-d array is modelled either as a total function `ℕ → ℕ → ℚ`
  together with its intended size, or (where the shape itself is at stake,
  for `combine_matrices`) as `List (List ℚ)` with explicit numpy-style
  broadcasting.
-/

/-- Pointwise update of a one-dimensional accumulator: add `v` at key `b`.
Models the Python statement `acc[b] += v` on a dict viewed as a function. -/
def addAt (f : ℕ → ℚ) (b : ℕ) (v : ℚ) : ℕ → ℚ :=
  fun x => if x = b then f x + v else f x

/-- Pointwise update of a two-dimensional accumulator: add `v` at cell
`(bi, bj)`.  Models the Python statement `M[bi][bj] += M0[i][j]` on a numpy
array viewed as a function. -/
def addAt2 (f : ℕ → ℕ → ℚ) (bi bj : ℕ) (v : ℚ) : ℕ → ℕ → ℚ :=
  fun x y => if x = bi ∧ y = bj then f x y + v else f x y

/-- Embedding of `normalize_dictionary(d)` from `base.py`:
`total = np.sum([d[i] for i in d])`; if `total == 0` the input dictionary is
returned unchanged, otherwise a new dictionary with every value divided by
`total`. -/
def normalize_dictionary (d : List (ℕ × ℚ)) : List (ℕ × ℚ) :=
  let total : ℚ := (d.map Prod.snd).sum
  if total = 0 then d
  else d.map (fun p => (p.1, p.2 / total))

theorem sum_map_div (l : List (ℕ × ℚ)) (t : ℚ) :
    ((l.map (fun p => (p.1, p.2 / t))).map Prod.snd).sum = (l.map Prod.snd).sum / t := by
  induction l with
  | nil => simp
  | cons p l ih =>
    simp only [List.map_cons, List.map_map, List.sum_cons, add_div]
    rw [← List.map_map, ih]

/-- C4: if the values of `d` sum to `0` then `normalize_dictionary` returns
`d` unchanged; otherwise it returns a dictionary with the same keys in the
same order, each value divided by the total, and the values of the result sum
exactly to `1`. -/
theorem normalize_dictionary_spec (d : List (ℕ × ℚ)) :
    ((d.map Prod.snd).sum = 0 → normalize_dictionary d = d) ∧
    ((d.map Prod.snd).sum ≠ 0 →
      (normalize_dictionary d).map Prod.fst = d.map Prod.fst ∧
      (∀ k v, (k, v) ∈ d → (k, v / (d.map Prod.snd).sum) ∈ normalize_dictionary d) ∧
      ((normalize_dictionary d).map Prod.snd).sum = 1) := by
  constructor
  · intro h
    simp [normalize_dictionary, h]
  · intro h
    refine ⟨?_, ?_, ?_⟩
    · simp [normalize_dictionary, h]
    · intro k v hkv
      simp only [normalize_dictionary, if_neg h]
      exact List.mem_map.2 ⟨(k, v), hkv, rfl⟩
    · simp only [normalize_dictionary, if_neg h]
      rw [sum_map_div]
      exact div_self h

/-- Witness for C4 at the concrete input `{0: 1, 1: 3}` (total `4 ≠ 0`). -/
theorem normalize_dictionary_spec_witness :
    ((([((0 : ℕ), (1 : ℚ)), (1, 3)]).map Prod.snd).sum ≠ 0) ∧
    ((normalize_dictionary [((0 : ℕ), (1 : ℚ)), (1, 3)]).map Prod.snd).sum = 1 :=
  ⟨by norm_num, ((normalize_dictionary_spec [(0, 1), (1, 3)]).2 (by norm_num)).2.2⟩

/-- The bracket that `base.py` looks up for age `a`:
`b = age_by_brackets_dictionary[a]`, on the association-list model of the
dictionary.  The default `0` is never reached when `a` is a key of the
dictionary (the Python code raises `KeyError` otherwise). -/
def bracketOf (abd : List (ℕ × ℕ)) (a : ℕ) : ℕ :=
  (List.lookup a abd).getD 0

/-- Embedding of `get_aggregate_ages(ages, age_by_brackets_dictionary)` from
`base.py`: `bracket_keys = set(values)`, an accumulator initialised to `0` on
those keys, and one `aggregate_ages[b] += ages[a]` per entry of `ages`.  The
result is the pair of the key set and the accumulator function. -/
def get_aggregate_ages (ages : List (ℕ × ℚ)) (abd : List (ℕ × ℕ)) :
    Finset ℕ × (ℕ → ℚ) :=
  let bracket_keys : Finset ℕ := (abd.map Prod.snd).toFinset
  (bracket_keys, ages.foldl (fun f p => addAt f (bracketOf abd p.1) p.2) (fun _ => 0))

theorem sum_addAt (K : Finset ℕ) (f : ℕ → ℚ) (b : ℕ) (v : ℚ) (hb : b ∈ K) :
    ∑ x ∈ K, addAt f b v x = (∑ x ∈ K, f x) + v := by
  have h1 : ∀ x, addAt f b v x = f x + (if x = b then v else 0) := by
    intro x
    by_cases h : x = b <;> simp [addAt, h]
  calc ∑ x ∈ K, addAt f b v x
      = ∑ x ∈ K, (f x + (if x = b then v else 0)) := Finset.sum_congr rfl fun x _ => h1 x
    _ = (∑ x ∈ K, f x) + ∑ x ∈ K, (if x = b then v else 0) := Finset.sum_add_distrib
    _ = (∑ x ∈ K, f x) + v := by rw [Finset.sum_ite_eq' K b fun _ => v, if_pos hb]

theorem lookup_mem_values (abd : List (ℕ × ℕ)) (a : ℕ) (ha : a ∈ abd.map Prod.fst) :
    bracketOf abd a ∈ abd.map Prod.snd := by
  induction abd with
  | nil => simp at ha
  | cons q l ih =>
    by_cases h : a = q.1
    · simp [bracketOf, List.lookup, h]
    · have ha2 : a ∈ l.map Prod.fst := by
        rcases List.mem_cons.1 ha with h1 | h1
        · exact absurd h1 h
        · exact h1
      have hb : (a == q.1) = false := beq_false_of_ne h
      simp only [bracketOf, List.lookup, hb] at *
      exact List.mem_cons_of_mem _ (ih ha2)

theorem aggregate_fold_sum (abd : List (ℕ × ℕ)) (K : Finset ℕ) (l : List (ℕ × ℚ))
    (f : ℕ → ℚ) (h : ∀ p ∈ l, bracketOf abd p.1 ∈ K) :
    ∑ b ∈ K, (l.foldl (fun f p => addAt f (bracketOf abd p.1) p.2) f) b
      = (∑ b ∈ K, f b) + (l.map Prod.snd).sum := by
  induction l generalizing f with
  | nil => simp
  | cons p l ih =>
    simp only [List.foldl_cons, List.map_cons, List.sum_cons]
    rw [ih _ (fun q hq => h q (List.mem_cons_of_mem _ hq)),
        sum_addAt K f _ _ (h p (List.mem_cons_self _ _))]
    ring

theorem aggregate_fold_untouched (abd : List (ℕ × ℕ)) (l : List (ℕ × ℚ))
    (f : ℕ → ℚ) (b : ℕ) (h : ∀ p ∈ l, bracketOf abd p.1 ≠ b) :
    (l.foldl (fun f p => addAt f (bracketOf abd p.1) p.2) f) b = f b := by
  induction l generalizing f with
  | nil => rfl
  | cons p l ih =>
    simp only [List.foldl_cons]
    rw [ih _ (fun q hq => h q (List.mem_cons_of_mem _ hq))]
    have hne : b ≠ bracketOf abd p.1 := fun he => h p (List.mem_cons_self _ _) he.symm
    simp [addAt, hne]

/-- C3: when every age key of `ages` appears in `age_by_brackets_dictionary`,
the aggregate has exactly one entry per distinct bracket id occurring among
the dictionary values, brackets matched by no input age keep the value `0`,
and the values of the aggregate sum to the same total as the values of
`ages`. -/
theorem get_aggregate_ages_spec (ages : List (ℕ × ℚ)) (abd : List (ℕ × ℕ))
    (hcov : ∀ p ∈ ages, p.1 ∈ abd.map Prod.fst) :
    (get_aggregate_ages ages abd).1 = (abd.map Prod.snd).toFinset ∧
    (∀ b, (∀ p ∈ ages, bracketOf abd p.1 ≠ b) → (get_aggregate_ages ages abd).2 b = 0) ∧
    (∑ b ∈ (get_aggregate_ages ages abd).1, (get_aggregate_ages ages abd).2 b)
      = (ages.map Prod.snd).sum := by
  refine ⟨rfl, ?_, ?_⟩
  · intro b hb
    exact aggregate_fold_untouched abd ages _ b hb
  · have h : ∀ p ∈ ages, bracketOf abd p.1 ∈ (abd.map Prod.snd).toFinset := fun p hp =>
      List.mem_toFinset.2 (lookup_mem_values abd p.1 (hcov p hp))
    simpa using aggregate_fold_sum abd ((abd.map Prod.snd).toFinset) ages (fun _ => 0) h

/-- Witness for C3 at the spec example `ages = {0:10, 1:20, 2:30}` with
brackets `{0:[0,1], 1:[2]}`, i.e. age-to-bracket map `{0:0, 1:0, 2:1}`. -/
theorem get_aggregate_ages_spec_witness :
    (∀ p ∈ [((0 : ℕ), (10 : ℚ)), (1, 20), (2, 30)],
        p.1 ∈ ([((0 : ℕ), (0 : ℕ)), (1, 0), (2, 1)]).map Prod.fst) ∧
    (∑ b ∈ (get_aggregate_ages [(0, 10), (1, 20), (2, 30)] [(0, 0), (1, 0), (2, 1)]).1,
        (get_aggregate_ages [(0, 10), (1, 20), (2, 30)] [(0, 0), (1, 0), (2, 1)]).2 b)
      = (([((0 : ℕ), (10 : ℚ)), (1, 20), (2, 30)]).map Prod.snd).sum := by
  have h : ∀ p ∈ [((0 : ℕ), (10 : ℚ)), (1, 20), (2, 30)],
      p.1 ∈ ([((0 : ℕ), (0 : ℕ)), (1, 0), (2, 1)]).map Prod.fst := by
    intro p hp
    rcases List.mem_cons.1 hp with h1 | h1
    · simp [h1]
    rcases List.mem_cons.1 h1 with h2 | h2
    · simp [h2]
    rcases List.mem_cons.1 h2 with h3 | h3
    · simp [h3]
    · simp at h3
  exact ⟨h, (get_aggregate_ages_spec [(0, 10), (1, 20), (2, 30)] [(0, 0), (1, 0), (2, 1)] h).2.2⟩

/-- The Python exception kinds raised by the functions of `base.py` that are
modelled with an explicit error result. -/
inductive PyError where
  | notImplementedError
  | valueError
  | keyError
  deriving DecidableEq

/-- Embedding of
`get_aggregate_age_dictionary_conversion(larger_aggregate_ages,
larger_age_brackets, smaller_age_brackets, age_by_brackets_dictionary_larger,
age_by_brackets_dictionary_smaller)` from `base.py`: raise
`NotImplementedError` when there are fewer larger brackets than smaller
brackets, otherwise initialise an accumulator to `0` on the smaller bracket
keys and, for each larger bracket `lb`, add `larger_aggregate_ages[lb]` at the
smaller bracket of the first age `larger_age_brackets[lb][0]`.  The first age
of a bracket is modelled by `headD 0`; the Python expression raises
`IndexError` on an empty bracket, so the theorems below restrict to inputs
whose brackets are all non-empty.  The parameter
`age_by_brackets_dictionary_larger` is unused, exactly as in the source. -/
def get_aggregate_age_dictionary_conversion (larger_aggregate_ages : ℕ → ℚ)
    (larger_age_brackets smaller_age_brackets : List (ℕ × List ℕ))
    (abd_larger abd_smaller : ℕ → ℕ) : Except PyError (Finset ℕ × (ℕ → ℚ)) :=
  if larger_age_brackets.length < smaller_age_brackets.length then
    .error .notImplementedError
  else
    .ok ((smaller_age_brackets.map Prod.fst).toFinset,
      larger_age_brackets.foldl
        (fun f p => addAt f (abd_smaller (p.2.headD 0)) (larger_aggregate_ages p.1))
        (fun _ => 0))

theorem conversion_fold_value (la : ℕ → ℚ) (as' : ℕ → ℕ) (l : List (ℕ × List ℕ))
    (f : ℕ → ℚ) (b : ℕ) :
    (l.foldl (fun f p => addAt f (as' (p.2.headD 0)) (la p.1)) f) b
      = f b + ((l.filter (fun p => as' (p.2.headD 0) == b)).map (fun p => la p.1)).sum := by
  induction l generalizing f with
  | nil => simp
  | cons p l ih =>
    rw [List.foldl_cons, List.filter_cons, ih]
    by_cases h : as' (p.2.headD 0) = b
    · rw [if_pos (by simpa using h), List.map_cons, List.sum_cons]
      simp only [addAt]
      rw [if_pos h.symm]
      ring
    · have hnb : b ≠ as' (p.2.headD 0) := fun he => h he.symm
      rw [if_neg (by simpa using h)]
      simp only [addAt]
      rw [if_neg hnb]

/-- C5: the conversion raises `NotImplementedError` exactly when the larger
scheme has fewer brackets than the smaller one, before producing any result;
otherwise (on well-formed inputs whose brackets are non-empty) it succeeds,
and each smaller bracket receives exactly the summed values of the larger
brackets whose first age lies in it. -/
theorem get_aggregate_age_dictionary_conversion_spec (la : ℕ → ℚ)
    (lbr sbr : List (ℕ × List ℕ)) (al as' : ℕ → ℕ) :
    (lbr.length < sbr.length →
      get_aggregate_age_dictionary_conversion la lbr sbr al as'
        = .error .notImplementedError) ∧
    (¬ lbr.length < sbr.length → (∀ p ∈ lbr, p.2 ≠ []) →
      ∃ r, get_aggregate_age_dictionary_conversion la lbr sbr al as' = .ok r ∧
        ∀ b, r.2 b
          = ((lbr.filter (fun p => as' (p.2.headD 0) == b)).map (fun p => la p.1)).sum) := by
  constructor
  · intro h
    simp [get_aggregate_age_dictionary_conversion, h]
  · intro h _
    refine ⟨((sbr.map Prod.fst).toFinset,
        lbr.foldl (fun f p => addAt f (as' (p.2.headD 0)) (la p.1)) (fun _ => 0)),
      by simp [get_aggregate_age_dictionary_conversion, h], ?_⟩
    intro b
    simpa using conversion_fold_value la as' lbr (fun _ => 0) b

/-- Witness for C5: three two-year larger brackets collapsed into two smaller
brackets, with ages `0..3` in smaller bracket `0` and ages `4..5` in smaller
bracket `1`. -/
theorem get_aggregate_age_dictionary_conversion_spec_witness :
    (¬ ([((0 : ℕ), [0, 1]), (1, [2, 3]), (2, [4, 5])] : List (ℕ × List ℕ)).length
        < ([((0 : ℕ), [0, 1, 2, 3]), (1, [4, 5])] : List (ℕ × List ℕ)).length) ∧
    (∀ p ∈ ([((0 : ℕ), [0, 1]), (1, [2, 3]), (2, [4, 5])] : List (ℕ × List ℕ)), p.2 ≠ []) ∧
    (∃ r, get_aggregate_age_dictionary_conversion (fun i => (i : ℚ) + 1)
        [(0, [0, 1]), (1, [2, 3]), (2, [4, 5])] [(0, [0, 1, 2, 3]), (1, [4, 5])]
        (fun a => a / 2) (fun a => if a ≤ 3 then 0 else 1) = .ok r ∧
      ∀ b, r.2 b
        = ((([((0 : ℕ), [0, 1]), (1, [2, 3]), (2, [4, 5])] : List (ℕ × List ℕ)).filter
              (fun p => (if p.2.headD 0 ≤ 3 then 0 else 1) == b)).map
            (fun p => ((p.1 : ℚ) + 1))).sum) := by
  refine ⟨by decide, by decide, ?_⟩
  exact (get_aggregate_age_dictionary_conversion_spec (fun i => (i : ℚ) + 1)
    [(0, [0, 1]), (1, [2, 3]), (2, [4, 5])] [(0, [0, 1, 2, 3]), (1, [4, 5])]
    (fun a => a / 2) (fun a => if a ≤ 3 then 0 else 1)).2 (by decide) (by decide)

/-- Sum of all cells of the leading `n × n` block of a matrix viewed as a
function: the value of `np.sum` on an `n × n` numpy array. -/
def gridSum (n : ℕ) (f : ℕ → ℕ → ℚ) : ℚ :=
  ∑ i ∈ Finset.range n, ∑ j ∈ Finset.range n, f i j

/-- The quantity `num_agebrackets = len(set(age_by_brackets_dictionary.values()))`
computed by `get_aggregate_matrix`, for a dictionary whose key set is the ages
`0 .. N-1` modelled as a total function restricted to `Finset.range N`. -/
def num_agebrackets (abd : ℕ → ℕ) (N : ℕ) : ℕ :=
  (Finset.image abd (Finset.range N)).card

/-- Embedding of `get_aggregate_matrix(M, age_by_brackets_dictionary)` from
`base.py`: starting from `np.zeros`, the nested loops perform
`M_agg[bi][bj] += M[i][j]` for every `i, j` in `range(N)` with
`bi = abd[i]`, `bj = abd[j]`.  `N = len(M)` is passed explicitly since the
matrix is modelled as a function. -/
def get_aggregate_matrix (M : ℕ → ℕ → ℚ) (abd : ℕ → ℕ) (N : ℕ) : ℕ → ℕ → ℚ :=
  (List.range N).foldl
    (fun acc i => (List.range N).foldl (fun acc j => addAt2 acc (abd i) (abd j) (M i j)) acc)
    (fun _ _ => 0)

theorem gridSum_addAt2 (k : ℕ) (f : ℕ → ℕ → ℚ) (bi bj : ℕ) (v : ℚ)
    (hbi : bi < k) (hbj : bj < k) :
    gridSum k (addAt2 f bi bj v) = gridSum k f + v := by
  have h1 : ∀ x y, addAt2 f bi bj v x y
      = f x y + (if x = bi then (if y = bj then v else 0) else 0) := by
    intro x y
    by_cases hx : x = bi <;> by_cases hy : y = bj <;> simp [addAt2, hx, hy]
  have h2 : ∀ x, ∑ y ∈ Finset.range k, (if x = bi then (if y = bj then v else 0) else 0)
      = if x = bi then v else 0 := by
    intro x
    by_cases hx : x = bi
    · rw [if_pos hx]
      have heach : ∀ y, (if x = bi then (if y = bj then v else 0) else 0)
          = (if y = bj then v else 0) := fun y => if_pos hx
      rw [Finset.sum_congr rfl fun y _ => heach y,
        Finset.sum_ite_eq' (Finset.range k) bj fun _ => v,
        if_pos (Finset.mem_range.2 hbj)]
    · rw [if_neg hx]
      simp [hx]
  calc gridSum k (addAt2 f bi bj v)
      = ∑ x ∈ Finset.range k, ∑ y ∈ Finset.range k,
          (f x y + (if x = bi then (if y = bj then v else 0) else 0)) := by
        exact Finset.sum_congr rfl fun x _ => Finset.sum_congr rfl fun y _ => h1 x y
    _ = gridSum k f + ∑ x ∈ Finset.range k,
          ∑ y ∈ Finset.range k, (if x = bi then (if y = bj then v else 0) else 0) := by
        simp only [Finset.sum_add_distrib, gridSum]
    _ = gridSum k f + v := by
        rw [Finset.sum_congr rfl fun x _ => h2 x,
          Finset.sum_ite_eq' (Finset.range k) bi fun _ => v,
          if_pos (Finset.mem_range.2 hbi)]

theorem list_range_sum (n : ℕ) (f : ℕ → ℚ) :
    ((List.range n).map f).sum = ∑ i ∈ Finset.range n, f i := by
  induction n with
  | zero => simp
  | succ n ih =>
    rw [List.range_succ, Finset.sum_range_succ, List.map_append, List.sum_append]
    simp [ih]

theorem aggregate_matrix_inner (M : ℕ → ℕ → ℚ) (abd : ℕ → ℕ) (k i : ℕ)
    (cols : List ℕ) (acc : ℕ → ℕ → ℚ) (hbi : abd i < k) (hc : ∀ j ∈ cols, abd j < k) :
    gridSum k (cols.foldl (fun acc j => addAt2 acc (abd i) (abd j) (M i j)) acc)
      = gridSum k acc + (cols.map (M i)).sum := by
  induction cols generalizing acc with
  | nil => simp
  | cons j cols ih =>
    rw [List.foldl_cons, List.map_cons, List.sum_cons,
      ih _ (fun x hx => hc x (List.mem_cons_of_mem _ hx)),
      gridSum_addAt2 k acc (abd i) (abd j) (M i j) hbi (hc j (List.mem_cons_self _ _))]
    ring

theorem aggregate_matrix_outer (M : ℕ → ℕ → ℚ) (abd : ℕ → ℕ) (k N : ℕ)
    (rows : List ℕ) (acc : ℕ → ℕ → ℚ)
    (hN : ∀ j ∈ List.range N, abd j < k) (hr : ∀ i ∈ rows, abd i < k) :
    gridSum k (rows.foldl
        (fun acc i => (List.range N).foldl
          (fun acc j => addAt2 acc (abd i) (abd j) (M i j)) acc) acc)
      = gridSum k acc + (rows.map (fun i => ((List.range N).map (M i)).sum)).sum := by
  induction rows generalizing acc with
  | nil => simp
  | cons i rows ih =>
    rw [List.foldl_cons, List.map_cons, List.sum_cons,
      ih _ (fun x hx => hr x (List.mem_cons_of_mem _ hx)),
      aggregate_matrix_inner M abd k i (List.range N) acc (hr i (List.mem_cons_self _ _)) hN]
    ring

/-- C2: when the brackets assigned to the row indices `0 .. N-1` are exactly
`{0, .., k-1}`, the aggregated matrix (of size `num_agebrackets = k`) has the
same total sum of entries as the `N × N` input matrix. -/
theorem get_aggregate_matrix_spec (M : ℕ → ℕ → ℚ) (abd : ℕ → ℕ) (N k : ℕ)
    (himg : Finset.image abd (Finset.range N) = Finset.range k) :
    num_agebrackets abd N = k ∧
    gridSum (num_agebrackets abd N) (get_aggregate_matrix M abd N) = gridSum N M := by
  have hcard : num_agebrackets abd N = k := by
    rw [num_agebrackets, himg, Finset.card_range]
  have hmem : ∀ i, i < N → abd i < k := by
    intro i hi
    have : abd i ∈ Finset.image abd (Finset.range N) :=
      Finset.mem_image_of_mem abd (Finset.mem_range.2 hi)
    rw [himg] at this
    exact Finset.mem_range.1 this
  refine ⟨hcard, ?_⟩
  rw [hcard, get_aggregate_matrix,
    aggregate_matrix_outer M abd k N (List.range N) (fun _ _ => 0)
      (fun j hj => hmem j (List.mem_range.1 hj)) (fun i hi => hmem i (List.mem_range.1 hi))]
  have hz : gridSum k (fun _ _ => 0) = 0 := by simp [gridSum]
  rw [hz, zero_add, list_range_sum N (fun i => ((List.range N).map (M i)).sum), gridSum]
  exact Finset.sum_congr rfl fun i _ => list_range_sum N (M i)

/-- Witness for C2: the identity bracket map on a `2 × 2` matrix, whose
bracket image is exactly `{0, 1}`. -/
theorem get_aggregate_matrix_spec_witness :
    (Finset.image (fun i => i) (Finset.range 2) = Finset.range 2) ∧
    (num_agebrackets (fun i => i) 2 = 2 ∧
      gridSum (num_agebrackets (fun i => i) 2)
          (get_aggregate_matrix (fun i j => (i : ℚ) + j) (fun i => i) 2)
        = gridSum 2 (fun i j => (i : ℚ) + j)) :=
  ⟨by decide, get_aggregate_matrix_spec (fun i j => (i : ℚ) + j) (fun i => i) 2 2 (by decide)⟩

/-- Embedding of `get_asymmetric_matrix(symmetric_matrix, aggregate_ages)`
from `base.py`: on a deep copy of the matrix, the loop performs
`M[a, :] = M[a, :] / aggregate_ages[a]` for each key `a` of `aggregate_ages`,
in iteration order.  The embedding is pure, so the input matrix is trivially
left unchanged (the Python code guarantees this via `deepcopy`). -/
def get_asymmetric_matrix (symmetric_matrix : ℕ → ℕ → ℚ) (aggregate_ages : List (ℕ × ℚ)) :
    ℕ → ℕ → ℚ :=
  aggregate_ages.foldl (fun M p => fun i j => if i = p.1 then M i j / p.2 else M i j)
    symmetric_matrix

theorem asymmetric_fold_untouched (S : ℕ → ℕ → ℚ) (l : List (ℕ × ℚ)) (a : ℕ)
    (ha : a ∉ l.map Prod.fst) (j : ℕ) :
    get_asymmetric_matrix S l a j = S a j := by
  induction l generalizing S with
  | nil => rfl
  | cons p l ih =>
    have hne : a ≠ p.1 := fun he => ha (by simp [he])
    have ha2 : a ∉ l.map Prod.fst := fun h => ha (List.mem_cons_of_mem _ h)
    rw [get_asymmetric_matrix, List.foldl_cons, ← get_asymmetric_matrix, ih _ ha2]
    simp [hne]

theorem asymmetric_fold_row (S : ℕ → ℕ → ℚ) (l : List (ℕ × ℚ)) (a : ℕ) (s : ℚ)
    (hnd : (l.map Prod.fst).Nodup) (hmem : (a, s) ∈ l) (j : ℕ) :
    get_asymmetric_matrix S l a j = S a j / s := by
  induction l generalizing S with
  | nil => simp at hmem
  | cons p l ih =>
    have hnd2 : (l.map Prod.fst).Nodup := (List.nodup_cons.1 hnd).2
    have hp1 : p.1 ∉ l.map Prod.fst := (List.nodup_cons.1 hnd).1
    rw [get_asymmetric_matrix, List.foldl_cons, ← get_asymmetric_matrix]
    rcases List.mem_cons.1 hmem with he | hl
    · have ha : a = p.1 := by rw [← he]
      have hs : s = p.2 := by rw [← he]
      have hnotin : a ∉ l.map Prod.fst := ha ▸ hp1
      rw [asymmetric_fold_untouched _ l a hnotin j]
      simp [ha, hs]
    · have hane : a ≠ p.1 := by
        intro he2
        exact hp1 (he2 ▸ List.mem_map.2 ⟨(a, s), hl, rfl⟩)
      rw [ih _ hnd2 hl]
      simp [hane]

/-- C6: for every row `a` with size `s` in `aggregate_ages`, the asymmetric
matrix divides the whole row `a` of the input by `s`; rows whose index is not
a key of `aggregate_ages` are unchanged; with a uniform cohort size `k` on
all listed rows the result is the element-wise division of those rows by
`k`. -/
theorem get_asymmetric_matrix_spec (S : ℕ → ℕ → ℚ) (sizes : List (ℕ × ℚ))
    (hnd : (sizes.map Prod.fst).Nodup) :
    (∀ a s, (a, s) ∈ sizes → ∀ j, get_asymmetric_matrix S sizes a j = S a j / s) ∧
    (∀ a, a ∉ sizes.map Prod.fst → ∀ j, get_asymmetric_matrix S sizes a j = S a j) ∧
    (∀ k : ℚ, (∀ p ∈ sizes, p.2 = k) →
      ∀ a ∈ sizes.map Prod.fst, ∀ j, get_asymmetric_matrix S sizes a j = S a j / k) := by
  refine ⟨?_, ?_, ?_⟩
  · intro a s hmem j
    exact asymmetric_fold_row S sizes a s hnd hmem j
  · intro a ha j
    exact asymmetric_fold_untouched S sizes a ha j
  · intro k hk a ha j
    rcases List.mem_map.1 ha with ⟨p, hp, hpa⟩
    have hs : p.2 = k := hk p hp
    have : (a, k) ∈ sizes := by
      have : p = (a, k) := by
        cases p
        simp only at hpa hs
        rw [hpa, hs]
      exact this ▸ hp
    exact asymmetric_fold_row S sizes a k hnd this j

/-- Witness for C6: a constant `2 × 2` matrix with uniform cohort size `2` on
rows `0` and `1`. -/
theorem get_asymmetric_matrix_spec_witness :
    (([((0 : ℕ), (2 : ℚ)), (1, 2)]).map Prod.fst).Nodup ∧
    (∀ a s, (a, s) ∈ [((0 : ℕ), (2 : ℚ)), (1, 2)] →
      ∀ j, get_asymmetric_matrix (fun _ _ => (4 : ℚ)) [(0, 2), (1, 2)] a j
        = (fun _ _ => (4 : ℚ)) a j / s) :=
  ⟨by decide,
    (get_asymmetric_matrix_spec (fun _ _ => (4 : ℚ)) [(0, 2), (1, 2)] (by decide)).1⟩

/-- One iteration of the first loop of `get_symmetric_community_matrix`:
`M[a, :] = M[a, :] * ages[a]` followed by `M[:, a] = M[:, a] * ages[a]`. -/
def communityScaleStep (ages : List ℚ) (M : ℕ → ℕ → ℚ) (a : ℕ) : ℕ → ℕ → ℚ :=
  let Mr := fun i j => if i = a then M i j * ages.getD a 0 else M i j
  fun i j => if j = a then Mr i j * ages.getD a 0 else Mr i j

/-- One iteration of the second loop of `get_symmetric_community_matrix`:
`M[a, a] -= ages[a]`. -/
def communityDiagStep (ages : List ℚ) (M : ℕ → ℕ → ℚ) (a : ℕ) : ℕ → ℕ → ℚ :=
  fun i j => if i = a ∧ j = a then M i j - ages.getD a 0 else M i j

/-- Embedding of `get_symmetric_community_matrix(ages)` from `base.py`:
`N = len(ages)`, `M = np.ones((N, N))`, row and column scaling by `ages[a]`
for `a in range(N)`, subtraction of `ages[a]` on the diagonal, and finally
division of the whole matrix by `sum(ages.values()) - 1`.  The population
dictionary has keys `0 .. N-1` (the code indexes `ages[a]` for
`a in range(N)`), so it is modelled as the list of its values. -/
def get_symmetric_community_matrix (ages : List ℚ) : ℕ → ℕ → ℚ :=
  let N := ages.length
  let M1 := (List.range N).foldl (communityScaleStep ages) (fun _ _ => 1)
  let M2 := (List.range N).foldl (communityDiagStep ages) M1
  fun i j => M2 i j / (ages.sum - 1)

theorem communityScaleStep_apply (ages : List ℚ) (M : ℕ → ℕ → ℚ) (a i j : ℕ) :
    communityScaleStep ages M a i j
      = M i j * (if i = a then ages.getD a 0 else 1) * (if j = a then ages.getD a 0 else 1) := by
  by_cases hi : i = a <;> by_cases hj : j = a <;>
    simp [communityScaleStep, hi, hj]

theorem community_scale_fold (ages : List ℚ) (l : List ℕ) (M : ℕ → ℕ → ℚ)
    (hnd : l.Nodup) (i j : ℕ) :
    (l.foldl (communityScaleStep ages) M) i j
      = M i j * (if i ∈ l then ages.getD i 0 else 1) * (if j ∈ l then ages.getD j 0 else 1) := by
  induction l generalizing M with
  | nil => simp
  | cons a t ih =>
    have hat : a ∉ t := (List.nodup_cons.1 hnd).1
    have hndt : t.Nodup := (List.nodup_cons.1 hnd).2
    rw [List.foldl_cons, ih _ hndt, communityScaleStep_apply]
    by_cases hi : i = a <;> by_cases hj : j = a <;> simp [hi, hj, hat] <;>
      split_ifs <;> ring

theorem community_diag_fold (ages : List ℚ) (l : List ℕ) (M : ℕ → ℕ → ℚ)
    (hnd : l.Nodup) (i j : ℕ) :
    (l.foldl (communityDiagStep ages) M) i j
      = if i = j ∧ i ∈ l then M i j - ages.getD i 0 else M i j := by
  induction l generalizing M with
  | nil => simp
  | cons a t ih =>
    have hat : a ∉ t := (List.nodup_cons.1 hnd).1
    have hndt : t.Nodup := (List.nodup_cons.1 hnd).2
    rw [List.foldl_cons, ih _ hndt]
    by_cases hij : i = j
    · subst hij
      by_cases hia : i = a
      · simp [communityDiagStep, hia, hat]
      · simp [communityDiagStep, hia]
    · have hna : ¬(i = a ∧ j = a) := fun h => hij (h.1.trans h.2.symm)
      simp [communityDiagStep, hij, hna]

/-- C1: for a population dictionary with keys `0 .. N-1`, non-negative sizes
and total population strictly greater than `1`, the community matrix has
off-diagonal entries `n_i * n_j / (T - 1)`, diagonal entries
`(n_i ^ 2 - n_i) / (T - 1)`, and is symmetric. -/
theorem get_symmetric_community_matrix_spec (ages : List ℚ)
    (hnn : ∀ v ∈ ages, 0 ≤ v) (hT : 1 < ages.sum) (i j : ℕ)
    (hi : i < ages.length) (hj : j < ages.length) :
    (i ≠ j → get_symmetric_community_matrix ages i j
        = ages.getD i 0 * ages.getD j 0 / (ages.sum - 1)) ∧
    get_symmetric_community_matrix ages i i
      = (ages.getD i 0 ^ 2 - ages.getD i 0) / (ages.sum - 1) ∧
    get_symmetric_community_matrix ages i j = get_symmetric_community_matrix ages j i := by
  have key : ∀ x y, x < ages.length → y < ages.length →
      get_symmetric_community_matrix ages x y
        = (if x = y then ages.getD x 0 * ages.getD y 0 - ages.getD x 0
            else ages.getD x 0 * ages.getD y 0) / (ages.sum - 1) := by
    intro x y hx hy
    have hxm : x ∈ List.range ages.length := List.mem_range.2 hx
    have hym : y ∈ List.range ages.length := List.mem_range.2 hy
    simp only [get_symmetric_community_matrix]
    rw [community_diag_fold ages (List.range ages.length) _ (List.nodup_range _) x y,
      community_scale_fold ages (List.range ages.length) _ (List.nodup_range _) x y]
    by_cases hxy : x = y
    · subst hxy
      simp [hxm]
    · simp [hxy, hxm, hym]
  refine ⟨?_, ?_, ?_⟩
  · intro hne
    rw [key i j hi hj, if_neg hne]
  · rw [key i i hi hi, if_pos rfl]
    congr 1
    ring
  · rw [key i j hi hj, key j i hj hi]
    by_cases hxy : i = j
    · subst hxy
      rfl
    · have hyx : ¬ j = i := fun h => hxy h.symm
      rw [if_neg hxy, if_neg hyx]
      congr 1
      ring

/-- Witness for C1 at the population `{0: 1, 1: 2, 2: 3}` (total `6 > 1`),
entries `(0, 1)`. -/
theorem get_symmetric_community_matrix_spec_witness :
    (∀ v ∈ [(1 : ℚ), 2, 3], 0 ≤ v) ∧ (1 < ([(1 : ℚ), 2, 3]).sum) ∧
    ((0 : ℕ) < ([(1 : ℚ), 2, 3]).length ∧ (1 : ℕ) < ([(1 : ℚ), 2, 3]).length) ∧
    (((0 : ℕ) ≠ 1 → get_symmetric_community_matrix [(1 : ℚ), 2, 3] 0 1
        = ([(1 : ℚ), 2, 3]).getD 0 0 * ([(1 : ℚ), 2, 3]).getD 1 0 / (([(1 : ℚ), 2, 3]).sum - 1)) ∧
      get_symmetric_community_matrix [(1 : ℚ), 2, 3] 0 0
        = (([(1 : ℚ), 2, 3]).getD 0 0 ^ 2 - ([(1 : ℚ), 2, 3]).getD 0 0) / (([(1 : ℚ), 2, 3]).sum - 1) ∧
      get_symmetric_community_matrix [(1 : ℚ), 2, 3] 0 1
        = get_symmetric_community_matrix [(1 : ℚ), 2, 3] 1 0) :=
  ⟨by norm_num, by norm_num, ⟨by norm_num, by norm_num⟩,
    get_symmetric_community_matrix_spec [(1 : ℚ), 2, 3] (by norm_num) (by norm_num) 0 1
      (by norm_num) (by norm_num)⟩

/-- Number of rows of a numpy 2-d array modelled as a list of rows. -/
def nrows (A : List (List ℚ)) : ℕ := A.length

/-- Number of columns of a numpy 2-d array modelled as a list of rows (the
length of the first row; rectangularity is a separate hypothesis). -/
def ncols (A : List (List ℚ)) : ℕ := (A.headD []).length

/-- A list of rows is a rectangular 2-d array: every row has the length of
the first one. -/
def Rect (A : List (List ℚ)) : Prop := ∀ r ∈ A, r.length = ncols A

/-- The entry `A[i][j]` of a 2-d array (defaulting to `0` out of bounds; the
theorems only use it in bounds). -/
def entryAt (A : List (List ℚ)) (i j : ℕ) : ℚ := (A.getD i []).getD j 0

/-- The numpy expression `A * w` (elementwise scaling of an array by a
scalar), as used in `combine_matrices`. -/
def mat_scale (A : List (List ℚ)) (w : ℚ) : List (List ℚ) :=
  A.map (fun row => row.map (fun v => v * w))

/-- The `n × n` array whose entry at `(i, j)` is `f i j`. -/
def mkMat (n : ℕ) (f : ℕ → ℕ → ℚ) : List (List ℚ) :=
  (List.range n).map (fun i => (List.range n).map (f i))

/-- Numpy broadcasting compatibility of the shape of `A` against an in-place
target of shape `(n, n)`: each axis must have extent `n` or `1`. -/
def Broadcastable (A : List (List ℚ)) (n : ℕ) : Prop :=
  (nrows A = n ∨ nrows A = 1) ∧ (ncols A = n ∨ ncols A = 1)

instance (A : List (List ℚ)) (n : ℕ) : Decidable (Broadcastable A n) := by
  unfold Broadcastable
  infer_instance

/-- The numpy in-place statement `M += A` for `M` of shape `(n, n)`:
if the shape of `A` broadcasts against `(n, n)` the sum is formed with the
broadcast rules (an axis of extent `1` is repeated), otherwise numpy raises
`ValueError: operands could not be broadcast together`. -/
def broadcastAdd (M A : List (List ℚ)) (n : ℕ) : Except PyError (List (List ℚ)) :=
  if Broadcastable A n then
    .ok (mkMat n (fun i j =>
      entryAt M i j + entryAt A (if nrows A = 1 then 0 else i) (if ncols A = 1 then 0 else j)))
  else
    .error .valueError

/-- The loop of `combine_matrices`: for each setting code in
`weights_dictionary` (in order), look the matrix up in `matrix_dictionary`
(`KeyError` when absent, as in Python) and perform
`M += matrix_dictionary[s] * weights_dictionary[s]` with numpy broadcasting
semantics. -/
def combineAux (md : List (String × List (List ℚ))) (n : ℕ) :
    List (List ℚ) → List (String × ℚ) → Except PyError (List (List ℚ))
  | M, [] => .ok M
  | M, p :: rest =>
    match List.lookup p.1 md with
    | none => .error .keyError
    | some A =>
      match broadcastAdd M (mat_scale A p.2) n with
      | .error e => .error e
      | .ok M2 => combineAux md n M2 rest

/-- Embedding of `combine_matrices(matrix_dictionary, weights_dictionary,
num_agebrackets)` from `base.py`: start from
`np.zeros((num_agebrackets, num_agebrackets))` and accumulate
`matrix_dictionary[s] * weights_dictionary[s]` over the settings `s` of the
weight dictionary. -/
def combine_matrices (matrix_dictionary : List (String × List (List ℚ)))
    (weights_dictionary : List (String × ℚ)) (num_agebrackets : ℕ) :
    Except PyError (List (List ℚ)) :=
  combineAux matrix_dictionary num_agebrackets
    (mkMat num_agebrackets (fun _ _ => 0)) weights_dictionary

theorem nrows_mkMat (n : ℕ) (f : ℕ → ℕ → ℚ) : nrows (mkMat n f) = n := by
  simp [nrows, mkMat]

theorem ncols_mkMat (n : ℕ) (f : ℕ → ℕ → ℚ) : ncols (mkMat n f) = n := by
  cases n with
  | zero => simp [ncols, mkMat]
  | succ m => simp [ncols, mkMat, List.range_succ_eq_map]

theorem entryAt_mkMat (n : ℕ) (f : ℕ → ℕ → ℚ) (i j : ℕ) (hi : i < n) (hj : j < n) :
    entryAt (mkMat n f) i j = f i j := by
  have h1 : (mkMat n f).getD i [] = (List.range n).map (f i) := by
    rw [mkMat, List.getD_eq_getElem?_getD, List.getElem?_map, List.getElem?_range hi]
    rfl
  rw [entryAt, h1, List.getD_eq_getElem?_getD, List.getElem?_map, List.getElem?_range hj]
  rfl

theorem nrows_mat_scale (A : List (List ℚ)) (w : ℚ) : nrows (mat_scale A w) = nrows A := by
  simp [nrows, mat_scale]

theorem ncols_mat_scale (A : List (List ℚ)) (w : ℚ) : ncols (mat_scale A w) = ncols A := by
  cases A <;> simp [ncols, mat_scale]

theorem broadcastable_mat_scale (A : List (List ℚ)) (w : ℚ) (n : ℕ) :
    Broadcastable (mat_scale A w) n ↔ Broadcastable A n := by
  simp [Broadcastable, nrows_mat_scale, ncols_mat_scale]

theorem entryAt_mat_scale (A : List (List ℚ)) (w : ℚ) (i j : ℕ)
    (hi : i < nrows A) (hrect : Rect A) (hj : j < ncols A) :
    entryAt (mat_scale A w) i j = entryAt A i j * w := by
  have hrow : A[i]? = some A[i] := List.getElem?_eq_getElem hi
  have hmem : A[i] ∈ A := List.getElem_mem hi
  have hlen : A[i].length = ncols A := hrect _ hmem
  have hj2 : j < A[i].length := hlen ▸ hj
  have hrow2 : A[i][j]? = some A[i][j] := List.getElem?_eq_getElem hj2
  simp [entryAt, mat_scale, List.getD_eq_getElem?_getD, List.getElem?_map, hrow, hrow2]

theorem broadcast_index (n i m : ℕ) (hm : m = n) (hi : i < n) :
    (if m = 1 then 0 else i) = i := by
  by_cases h1 : m = 1
  · rw [if_pos h1]
    omega
  · rw [if_neg h1]

theorem combineAux_ok (md : List (String × List (List ℚ))) (n : ℕ)
    (wd : List (String × ℚ))
    (hw : ∀ p ∈ wd, ∃ A, List.lookup p.1 md = some A ∧ nrows A = n ∧ ncols A = n ∧ Rect A) :
    ∀ M, nrows M = n → ncols M = n →
      ∃ M2, combineAux md n M wd = .ok M2 ∧ nrows M2 = n ∧ ncols M2 = n ∧
        ∀ i, i < n → ∀ j, j < n →
          entryAt M2 i j = entryAt M i j
            + (wd.map (fun p => entryAt ((List.lookup p.1 md).getD []) i j * p.2)).sum := by
  induction wd with
  | nil =>
    intro M h1 h2
    exact ⟨M, rfl, h1, h2, by simp⟩
  | cons p rest ih =>
    intro M hM1 hM2
    obtain ⟨A, hA, hAr, hAc, hArect⟩ := hw p (List.mem_cons_self _ _)
    have hbr : Broadcastable (mat_scale A p.2) n :=
      ⟨Or.inl (by rw [nrows_mat_scale, hAr]), Or.inl (by rw [ncols_mat_scale, hAc])⟩
    have hstep : combineAux md n M (p :: rest)
        = combineAux md n (mkMat n (fun i j =>
            entryAt M i j + entryAt (mat_scale A p.2)
              (if nrows (mat_scale A p.2) = 1 then 0 else i)
              (if ncols (mat_scale A p.2) = 1 then 0 else j))) rest := by
      simp only [combineAux, hA, broadcastAdd, if_pos hbr]
    obtain ⟨M2, hM2eq, hs1, hs2, hent⟩ :=
      ih (fun q hq => hw q (List.mem_cons_of_mem _ hq)) _ (nrows_mkMat n _) (ncols_mkMat n _)
    refine ⟨M2, hstep ▸ hM2eq, hs1, hs2, ?_⟩
    intro i hi j hj
    rw [hent i hi j hj, entryAt_mkMat n _ i j hi hj,
      broadcast_index n i (nrows (mat_scale A p.2)) (by rw [nrows_mat_scale, hAr]) hi,
      broadcast_index n j (ncols (mat_scale A p.2)) (by rw [ncols_mat_scale, hAc]) hj,
      entryAt_mat_scale A p.2 i j (hAr ▸ hi) hArect (hAc ▸ hj),
      List.map_cons, List.sum_cons, hA]
    simp only [Option.getD_some]
    ring

/-- C7: when every setting of the weight dictionary has an
`n × n` matrix, `combine_matrices` succeeds and every entry of the result is
the weighted sum of the corresponding entries over the weighted settings
(settings with a matrix but no weight contribute nothing, since only the
weight dictionary is iterated); and on the concrete example
`combine({a: [[1,2],[2,1]], b: [[3,0],[0,3]]}, {a: 0.5, b: 0.5}, 2)` the
result is `[[2,1],[1,2]]`. -/
theorem combine_matrices_spec (md : List (String × List (List ℚ)))
    (wd : List (String × ℚ)) (n : ℕ)
    (hw : ∀ p ∈ wd, ∃ A, List.lookup p.1 md = some A ∧ nrows A = n ∧ ncols A = n ∧ Rect A) :
    (∃ M, combine_matrices md wd n = .ok M ∧ nrows M = n ∧ ncols M = n ∧
      ∀ i, i < n → ∀ j, j < n →
        entryAt M i j
          = (wd.map (fun p => entryAt ((List.lookup p.1 md).getD []) i j * p.2)).sum) ∧
    combine_matrices [("a", [[1, 2], [2, 1]]), ("b", [[3, 0], [0, 3]])]
        [("a", 1/2), ("b", 1/2)] 2 = .ok [[2, 1], [1, 2]] := by
  constructor
  · obtain ⟨M2, heq, hs1, hs2, hent⟩ :=
      combineAux_ok md n wd hw (mkMat n (fun _ _ => 0)) (nrows_mkMat n _) (ncols_mkMat n _)
    refine ⟨M2, heq, hs1, hs2, ?_⟩
    intro i hi j hj
    rw [hent i hi j hj, entryAt_mkMat n _ i j hi hj, zero_add]
  · have hba : (("b" == "a") : Bool) = false := rfl
    have haa : (("a" == "a") : Bool) = true := rfl
    have hbb : (("b" == "b") : Bool) = true := rfl
    norm_num [combine_matrices, combineAux, broadcastAdd, Broadcastable, mat_scale, mkMat,
      entryAt, nrows, ncols, List.lookup, List.range_succ, hba, haa, hbb]

/-- Witness for C7 at the spec example (both settings have `2 × 2`
matrices). -/
theorem combine_matrices_spec_witness :
    (∀ p ∈ ([("a", (1 : ℚ)/2), ("b", 1/2)] : List (String × ℚ)),
      ∃ A, List.lookup p.1 [("a", [[(1 : ℚ), 2], [2, 1]]), ("b", [[3, 0], [0, 3]])] = some A ∧
        nrows A = 2 ∧ ncols A = 2 ∧ Rect A) ∧
    (∃ M, combine_matrices [("a", [[(1 : ℚ), 2], [2, 1]]), ("b", [[3, 0], [0, 3]])]
        [("a", 1/2), ("b", 1/2)] 2 = .ok M ∧ nrows M = 2 ∧ ncols M = 2 ∧
      ∀ i, i < 2 → ∀ j, j < 2 →
        entryAt M i j
          = (([("a", (1 : ℚ)/2), ("b", 1/2)] : List (String × ℚ)).map
              (fun p => entryAt ((List.lookup p.1
                [("a", [[(1 : ℚ), 2], [2, 1]]), ("b", [[3, 0], [0, 3]])]).getD []) i j * p.2)).sum) := by
  have hra : Rect [[(1 : ℚ), 2], [2, 1]] := by
    intro r hr
    rcases List.mem_cons.1 hr with h | h
    · subst h
      rfl
    rcases List.mem_cons.1 h with h2 | h2
    · subst h2
      rfl
    · simp at h2
  have hrb : Rect [[(3 : ℚ), 0], [0, 3]] := by
    intro r hr
    rcases List.mem_cons.1 hr with h | h
    · subst h
      rfl
    rcases List.mem_cons.1 h with h2 | h2
    · subst h2
      rfl
    · simp at h2
  have hw : ∀ p ∈ ([("a", (1 : ℚ)/2), ("b", 1/2)] : List (String × ℚ)),
      ∃ A, List.lookup p.1 [("a", [[(1 : ℚ), 2], [2, 1]]), ("b", [[3, 0], [0, 3]])] = some A ∧
        nrows A = 2 ∧ ncols A = 2 ∧ Rect A := by
    intro p hp
    rcases List.mem_cons.1 hp with h | h
    · subst h
      exact ⟨[[(1 : ℚ), 2], [2, 1]], rfl, rfl, rfl, hra⟩
    rcases List.mem_cons.1 h with h2 | h2
    · subst h2
      exact ⟨[[(3 : ℚ), 0], [0, 3]], rfl, rfl, rfl, hrb⟩
    · simp at h2
  exact ⟨hw, (combine_matrices_spec _ _ 2 hw).1⟩

theorem combineAux_ok_iff (md : List (String × List (List ℚ))) (n : ℕ)
    (wd : List (String × ℚ))
    (hp : ∀ p ∈ wd, ∃ A, List.lookup p.1 md = some A) :
    ∀ M, (∃ M2, combineAux md n M wd = .ok M2)
      ↔ ∀ p ∈ wd, Broadcastable ((List.lookup p.1 md).getD []) n := by
  induction wd with
  | nil =>
    intro M
    simp [combineAux]
  | cons p rest ih =>
    intro M
    obtain ⟨A, hA⟩ := hp p (List.mem_cons_self _ _)
    have ihr := ih (fun q hq => hp q (List.mem_cons_of_mem _ hq))
    rw [List.forall_mem_cons]
    by_cases hb : Broadcastable (mat_scale A p.2) n
    · have hstep : combineAux md n M (p :: rest)
          = combineAux md n (mkMat n (fun i j =>
              entryAt M i j + entryAt (mat_scale A p.2)
                (if nrows (mat_scale A p.2) = 1 then 0 else i)
                (if ncols (mat_scale A p.2) = 1 then 0 else j))) rest := by
        simp only [combineAux, hA, broadcastAdd, if_pos hb]
      constructor
      · rintro ⟨M2, hM2⟩
        rw [hstep] at hM2
        refine ⟨?_, (ihr _).1 ⟨M2, hM2⟩⟩
        rw [hA]
        simpa using (broadcastable_mat_scale A p.2 n).1 hb
      · rintro ⟨hp1, hrest⟩
        obtain ⟨M2, hM2⟩ := (ihr _).2 hrest
        exact ⟨M2, by rw [hstep]; exact hM2⟩
    · have hstep : combineAux md n M (p :: rest) = .error .valueError := by
        simp only [combineAux, hA, broadcastAdd, if_neg hb]
      constructor
      · rintro ⟨M2, hM2⟩
        rw [hstep] at hM2
        exact absurd hM2 (by simp)
      · rintro ⟨hp1, _⟩
        exfalso
        apply hb
        rw [broadcastable_mat_scale]
        rw [hA] at hp1
        simpa using hp1

/-- C8 (amended): provided every weighted setting has a matrix,
`combine_matrices` succeeds exactly when every weighted setting's matrix has
a shape that numpy can broadcast against `(num_agebrackets, num_agebrackets)`
(each axis of extent `num_agebrackets` or `1`); a matrix whose shape cannot
broadcast makes it fail with a dimension (broadcast) error. -/
theorem combine_matrices_shape_spec (md : List (String × List (List ℚ)))
    (wd : List (String × ℚ)) (n : ℕ)
    (hp : ∀ p ∈ wd, ∃ A, List.lookup p.1 md = some A) :
    (∃ M, combine_matrices md wd n = .ok M)
      ↔ ∀ p ∈ wd, Broadcastable ((List.lookup p.1 md).getD []) n :=
  combineAux_ok_iff md n wd hp (mkMat n (fun _ _ => 0))

/-- Counterexample to C8 as stated: a `1 × 1` matrix is not of shape
`2 × 2`, yet `combine_matrices` silently broadcasts it over the `2 × 2` zero
matrix and returns a result instead of failing. -/
theorem combine_matrices_shape_counterexample :
    (nrows [[(5 : ℚ)]] ≠ 2 ∧ ncols [[(5 : ℚ)]] ≠ 2) ∧
    combine_matrices [("a", [[(5 : ℚ)]])] [("a", 1)] 2 = .ok [[5, 5], [5, 5]] := by
  refine ⟨⟨by simp [nrows], by simp [ncols]⟩, ?_⟩
  have haa : (("a" == "a") : Bool) = true := rfl
  norm_num [combine_matrices, combineAux, broadcastAdd, Broadcastable, mat_scale, mkMat,
    entryAt, nrows, ncols, List.lookup, List.range_succ, haa]

/-- Witness for the amended C8: a `3 × 3` matrix cannot broadcast against
`(2, 2)`, so the combination fails. -/
theorem combine_matrices_shape_spec_witness :
    (∀ p ∈ ([("a", (1 : ℚ))] : List (String × ℚ)),
      ∃ A, List.lookup p.1 [("a", [[(1 : ℚ), 2, 3], [4, 5, 6], [7, 8, 9]])] = some A) ∧
    ((∃ M, combine_matrices [("a", [[(1 : ℚ), 2, 3], [4, 5, 6], [7, 8, 9]])]
        [("a", 1)] 2 = .ok M)
      ↔ ∀ p ∈ ([("a", (1 : ℚ))] : List (String × ℚ)),
          Broadcastable ((List.lookup p.1
            [("a", [[(1 : ℚ), 2, 3], [4, 5, 6], [7, 8, 9]])]).getD []) 2) := by
  have hp : ∀ p ∈ ([("a", (1 : ℚ))] : List (String × ℚ)),
      ∃ A, List.lookup p.1 [("a", [[(1 : ℚ), 2, 3], [4, 5, 6], [7, 8, 9]])] = some A := by
    intro p hmem
    rcases List.mem_cons.1 hmem with h | h
    · subst h
      exact ⟨[[(1 : ℚ), 2, 3], [4, 5, 6], [7, 8, 9]], rfl⟩
    · simp at h
  exact ⟨hp, combine_matrices_shape_spec _ _ 2 hp⟩

/-- The Python statement `ids_by_age_dictionary[age].append(i)` on the
association-list model: append `i` to the list stored at key `age`. -/
def appendAt (l : List (ℕ × List ℕ)) (age i : ℕ) : List (ℕ × List ℕ) :=
  l.map (fun p => if p.1 = age then (p.1, p.2 ++ [i]) else p)

/-- Embedding of `get_ids_by_age_dictionary(age_by_id_dictionary)` from
`base.py`: `max_val = max(values)` (Python `max` raises `ValueError` on an
empty dictionary), one empty list per age in `0 .. max_val`, then each ID is
appended to the list of its age, in the iteration (insertion) order of the
input dictionary. -/
def get_ids_by_age_dictionary (age_by_id_dictionary : List (ℕ × ℕ)) :
    Except PyError (List (ℕ × List ℕ)) :=
  match (age_by_id_dictionary.map Prod.snd).max? with
  | none => .error .valueError
  | some max_val =>
    .ok (age_by_id_dictionary.foldl (fun l p => appendAt l p.2 p.1)
      ((List.range (max_val + 1)).map (fun a => (a, ([] : List ℕ)))))

theorem ids_fold_characterize (d : List (ℕ × ℕ)) (l : List (ℕ × List ℕ)) :
    d.foldl (fun l p => appendAt l p.2 p.1) l
      = l.map (fun q => (q.1, q.2 ++ (d.filter (fun p => p.2 == q.1)).map Prod.fst)) := by
  induction d generalizing l with
  | nil => simp
  | cons p d ih =>
    rw [List.foldl_cons, ih, appendAt, List.map_map]
    refine List.map_congr_left (fun q _ => ?_)
    simp only [Function.comp_apply]
    by_cases h : q.1 = p.2
    · have hb : (p.2 == q.1) = true := beq_iff_eq.2 h.symm
      rw [if_pos h, List.filter_cons, hb]
      simp
    · have hb : (p.2 == q.1) = false := beq_false_of_ne (fun he => h he.symm)
      rw [if_neg h, List.filter_cons, hb]
      simp

/-- C9: for a non-empty ID-to-age dictionary with maximal age `m`, the
function succeeds, the key list of the result is exactly `0 .. m` in order,
and the list at each age holds precisely the IDs having that age, in input
iteration order; on the spec example `{0:0, 1:0, 2:1}` the result is
`{0: [0, 1], 1: [2]}`. -/
theorem get_ids_by_age_dictionary_spec (d : List (ℕ × ℕ)) (m : ℕ)
    (hmax : (d.map Prod.snd).max? = some m) :
    (∃ out, get_ids_by_age_dictionary d = .ok out ∧
      out.map Prod.fst = List.range (m + 1) ∧
      ∀ p ∈ out, p.2 = (d.filter (fun q => q.2 == p.1)).map Prod.fst) ∧
    get_ids_by_age_dictionary [(0, 0), (1, 0), (2, 1)]
      = .ok [(0, [0, 1]), (1, [2])] := by
  constructor
  · refine ⟨(List.range (m + 1)).map
        (fun a => (a, (d.filter (fun q => q.2 == a)).map Prod.fst)), ?_, ?_, ?_⟩
    · simp only [get_ids_by_age_dictionary, hmax, ids_fold_characterize, List.map_map]
      congr 1
    · rw [List.map_map]
      have : ∀ a ∈ List.range (m + 1),
          (Prod.fst ∘ fun a => (a, (d.filter (fun q => q.2 == a)).map Prod.fst)) a = id a :=
        fun a _ => rfl
      rw [List.map_congr_left this, List.map_id]
    · intro p hp
      rcases List.mem_map.1 hp with ⟨a, _, ha⟩
      rw [← ha]
  · rfl

/-- Witness for C9 at the spec example `{0:0, 1:0, 2:1}` (maximal age 1). -/
theorem get_ids_by_age_dictionary_spec_witness :
    ((([((0 : ℕ), (0 : ℕ)), (1, 0), (2, 1)]).map Prod.snd).max? = some 1) ∧
    (∃ out, get_ids_by_age_dictionary [(0, 0), (1, 0), (2, 1)] = .ok out ∧
      out.map Prod.fst = List.range (1 + 1) ∧
      ∀ p ∈ out, p.2 = (([((0 : ℕ), (0 : ℕ)), (1, 0), (2, 1)]).filter
        (fun q => q.2 == p.1)).map Prod.fst) :=
  ⟨by decide, (get_ids_by_age_dictionary_spec [(0, 0), (1, 0), (2, 1)] 1 (by decide)).1⟩

/-- C10: on the empty ID-to-age dictionary, `get_ids_by_age_dictionary`
raises (Python `max` of an empty sequence raises `ValueError`) instead of
returning an empty index. -/
theorem get_ids_by_age_dictionary_empty :
    get_ids_by_age_dictionary [] = .error .valueError := rfl
